import Mathlib

/-! A shallow embedding of the core algorithms of the n8n Oracle Cloud community
nodes (vector store, embeddings client, chat translator, key normalizer,
distance resolver, transcription poll loop), together with proofs about them.
Each definition is translated from the corresponding TypeScript source file;
external collaborators (the database driver, the OCI SDK clients, JSON parsing
of opaque payloads, the random UUID source) are modelled as explicit function
parameters so that the surrounding control flow stays exactly as in the code. -/

/-! ## 32-bit arithmetic and SHA-256

`OracleDbVectorStore.addTexts` derives record ids with Node's
`createHash('sha256').update(x).digest('hex')`.  We embed SHA-256 itself
(FIPS 180-4) over `Nat` with explicit reduction modulo `2 ^ 32`, operating on
the UTF-8 bytes of the input string, exactly as Node hashes a string. -/

def w32 (n : Nat) : Nat := n % 4294967296

def not32 (n : Nat) : Nat := n ^^^ 4294967295

def rotr32 (k x : Nat) : Nat := w32 ((x >>> k) ||| (x <<< (32 - k)))

def sha256K : List Nat :=
  [1116352408, 1899447441, 3049323471, 3921009573, 961987163, 1508970993,
   2453635748, 2870763221, 3624381080, 310598401, 607225278, 1426881987,
   1925078388, 2162078206, 2614888103, 3248222580, 3835390401, 4022224774,
   264347078, 604807628, 770255983, 1249150122, 1555081692, 1996064986,
   2554220882, 2821834349, 2952996808, 3210313671, 3336571891, 3584528711,
   113926993, 338241895, 666307205, 773529912, 1294757372, 1396182291,
   1695183700, 1986661051, 2177026350, 2456956037, 2730485921, 2820302411,
   3259730800, 3345764771, 3516065817, 3600352804, 4094571909, 275423344,
   430227734, 506948616, 659060556, 883997877, 958139571, 1322822218,
   1537002063, 1747873779, 1955562222, 2024104815, 2227730452, 2361852424,
   2428436474, 2756734187, 3204031479, 3329325298]

structure Hash8 where
  h0 : Nat
  h1 : Nat
  h2 : Nat
  h3 : Nat
  h4 : Nat
  h5 : Nat
  h6 : Nat
  h7 : Nat

def sha256InitHash : Hash8 :=
  ⟨1779033703, 3144134277, 1013904242, 2773480762, 1359893119, 2600822924, 528734635, 1541459225⟩

def sha256ExtendStep (ws : List Nat) : List Nat :=
  let n := ws.length
  let g := fun i => ws.getD i 0
  let s0 := rotr32 7 (g (n - 15)) ^^^ rotr32 18 (g (n - 15)) ^^^ (g (n - 15) >>> 3)
  let s1 := rotr32 17 (g (n - 2)) ^^^ rotr32 19 (g (n - 2)) ^^^ (g (n - 2) >>> 10)
  ws ++ [w32 (g (n - 16) + s0 + g (n - 7) + s1)]

def sha256Schedule (ws : List Nat) : List Nat :=
  (List.range 48).foldl (fun acc _ => sha256ExtendStep acc) ws

def sha256Round (st : Nat × Nat × Nat × Nat × Nat × Nat × Nat × Nat) (kw : Nat × Nat) :
    Nat × Nat × Nat × Nat × Nat × Nat × Nat × Nat :=
  match st, kw with
  | (a, b, c, d, e, f, g, hh), (k, w) =>
    let s1 := rotr32 6 e ^^^ rotr32 11 e ^^^ rotr32 25 e
    let ch := (e &&& f) ^^^ (not32 e &&& g)
    let temp1 := w32 (hh + s1 + ch + k + w)
    let s0 := rotr32 2 a ^^^ rotr32 13 a ^^^ rotr32 22 a
    let maj := (a &&& b) ^^^ (a &&& c) ^^^ (b &&& c)
    let temp2 := w32 (s0 + maj)
    (w32 (temp1 + temp2), a, b, c, w32 (d + temp1), e, f, g)

def sha256Chunk (h : Hash8) (ws : List Nat) : Hash8 :=
  match (sha256K.zip (sha256Schedule ws)).foldl sha256Round
      (h.h0, h.h1, h.h2, h.h3, h.h4, h.h5, h.h6, h.h7) with
  | (a, b, c, d, e, f, g, hh) =>
    ⟨w32 (h.h0 + a), w32 (h.h1 + b), w32 (h.h2 + c), w32 (h.h3 + d),
     w32 (h.h4 + e), w32 (h.h5 + f), w32 (h.h6 + g), w32 (h.h7 + hh)⟩

def beBytes8 (n : Nat) : List Nat :=
  [(n >>> 56) &&& 255, (n >>> 48) &&& 255, (n >>> 40) &&& 255, (n >>> 32) &&& 255,
   (n >>> 24) &&& 255, (n >>> 16) &&& 255, (n >>> 8) &&& 255, n &&& 255]

def sha256Pad (msg : List Nat) : List Nat :=
  msg ++ 128 :: List.replicate ((64 + 56 - (msg.length + 1) % 64) % 64) 0
    ++ beBytes8 (8 * msg.length)

def bytesToWords : List Nat → List Nat
  | b0 :: b1 :: b2 :: b3 :: rest => (((b0 * 256 + b1) * 256 + b2) * 256 + b3) :: bytesToWords rest
  | _ => []

/-- Worker for `chunksOfSucc`, structurally recursive on a fuel argument so
that it evaluates by kernel reduction; the fuel is always instantiated with
the length of the list, which bounds the number of chunks. -/
def chunksOfSuccFuel (k : Nat) : Nat → List α → List (List α)
  | _, [] => []
  | 0, a :: l => [a :: l]
  | fuel + 1, a :: l => (a :: l.take k) :: chunksOfSuccFuel k fuel (l.drop k)

/-- Splits a list into consecutive chunks of `k + 1` elements (the last chunk
may be shorter).  Used with `k = 63` for SHA-256 blocks and for the key
normalizer's 64-character body lines, and with `k = 89` for the embeddings
client's batches of 90. -/
def chunksOfSucc (k : Nat) (l : List α) : List (List α) := chunksOfSuccFuel k l.length l

def sha256Bytes (msg : List Nat) : Hash8 :=
  (chunksOfSucc 63 (sha256Pad msg)).foldl (fun h c => sha256Chunk h (bytesToWords c))
    sha256InitHash

def hexDigitChar (n : Nat) : Char := if n < 10 then Char.ofNat (48 + n) else Char.ofNat (87 + n)

def wordHex (w : Nat) : List Char :=
  [hexDigitChar ((w >>> 28) &&& 15), hexDigitChar ((w >>> 24) &&& 15),
   hexDigitChar ((w >>> 20) &&& 15), hexDigitChar ((w >>> 16) &&& 15),
   hexDigitChar ((w >>> 12) &&& 15), hexDigitChar ((w >>> 8) &&& 15),
   hexDigitChar ((w >>> 4) &&& 15), hexDigitChar (w &&& 15)]

def utf8EncodeCharNat (c : Char) : List Nat :=
  let n := c.toNat
  if n < 128 then [n]
  else if n < 2048 then [192 ||| (n >>> 6), 128 ||| (n &&& 63)]
  else if n < 65536 then [224 ||| (n >>> 12), 128 ||| ((n >>> 6) &&& 63), 128 ||| (n &&& 63)]
  else [240 ||| (n >>> 18), 128 ||| ((n >>> 12) &&& 63), 128 ||| ((n >>> 6) &&& 63),
        128 ||| (n &&& 63)]

def utf8Bytes (s : String) : List Nat := s.data.foldr (fun c acc => utf8EncodeCharNat c ++ acc) []

/-- `createHash('sha256').update(s).digest('hex')`: the lowercase hex digest of
the SHA-256 of the UTF-8 bytes of `s`. -/
def sha256Hex (s : String) : String :=
  let h := sha256Bytes (utf8Bytes s)
  ⟨wordHex h.h0 ++ wordHex h.h1 ++ wordHex h.h2 ++ wordHex h.h3 ++
   wordHex h.h4 ++ wordHex h.h5 ++ wordHex h.h6 ++ wordHex h.h7⟩

/-- JavaScript `toUpperCase` at character level; the strings it is applied to
in the embedded code are hex digests, so only ASCII letters occur. -/
def jsCharUpper (c : Char) : Char :=
  if 'a' ≤ c ∧ c ≤ 'z' then Char.ofNat (c.toNat - 32) else c

/-- The id-hashing expression used three times in `addTexts`:
`createHash('sha256').update(x).digest('hex').substring(0, 16).toUpperCase()`. -/
def jsHash16 (s : String) : String := ⟨((sha256Hex s).data.take 16).map jsCharUpper⟩

/-! ## addTexts: id derivation and row batch (VectorStoreOracleTool.node.ts) -/

/-- A JavaScript record with string values, as an association list.  Metadata
objects and tool-call argument objects are modelled this way; the values that
the embedded code actually consumes (the `id` field hashed by `addTexts`) are
strings in every spec scenario. -/
abbrev JsObject := List (String × String)

def metaHasId (m : JsObject) : Bool := (m.lookup "id").isSome

def metaIdValue (m : JsObject) : String := (m.lookup "id").getD ""

/-- The guard `ids && ids.length > 0` of the first branch of `addTexts`. -/
def idsProvided : Option (List String) → Bool
  | some l => decide (0 < l.length)
  | none => false

/-- The guard `metadatas && metadatas.every(metadata => "id" in metadata)`. -/
def allMetadatasHaveId : Option (List JsObject) → Bool
  | some ms => ms.all metaHasId
  | none => false

/-- The `processed_ids` computation of `addTexts`.  The random UUID source
(`randomUUID()`, called once per text in the fallback branch) is modelled as a
supply `uuid : Nat → String` giving the UUID generated for the i-th text. -/
def processedIds (texts : List String) (metadatas : Option (List JsObject))
    (ids : Option (List String)) (uuid : Nat → String) : List String :=
  if idsProvided ids then (ids.getD []).map jsHash16
  else if allMetadatasHaveId metadatas then
    (metadatas.getD []).map (fun m => jsHash16 (metaIdValue m))
  else ((List.range texts.length).map uuid).map jsHash16

/-- `Buffer.from(s, 'hex')`: consecutive pairs of hex digits become bytes (the
ids fed to it are always 16 valid hex characters). -/
def hexCharVal (c : Char) : Nat :=
  if '0' ≤ c ∧ c ≤ '9' then c.toNat - 48
  else if 'a' ≤ c ∧ c ≤ 'f' then c.toNat - 87
  else if 'A' ≤ c ∧ c ≤ 'F' then c.toNat - 55
  else 0

def hexToBytes : List Char → List Nat
  | c1 :: c2 :: rest => (16 * hexCharVal c1 + hexCharVal c2) :: hexToBytes rest
  | _ => []

/-- One element of `_mergeArraysToObject`'s result: `texts[index]` etc. are
`undefined` (here `none`) when the index is past the end of the array. -/
structure MergedRecord where
  id : String
  text : Option String
  metadata : Option JsObject
  embedding : Option (List Float)

def mergeArraysToObject (ids texts : List String) (metadatas : List JsObject)
    (embeddings : List (List Float)) : List MergedRecord :=
  ids.enum.map fun p => ⟨p.2, texts.get? p.1, metadatas.get? p.1, embeddings.get? p.1⟩

/-- One bound row of the `executeMany` batch insert: the id is converted with
`Buffer.from(record.id, 'hex')`; text, metadata (stringified to JSON on the
wire) and embedding are passed through. -/
structure BindRow where
  id : List Nat
  text : Option String
  metadata : Option JsObject
  embedding : Option (List Float)

def bindOfRecord (r : MergedRecord) : BindRow :=
  ⟨hexToBytes r.id.data, r.text, r.metadata, r.embedding⟩

/-- The observable effect of `addTexts` up to the database call: the texts sent
to `embeddings.embedDocuments` and the row batch handed to `executeMany`. -/
structure AddTextsRun where
  embedInputs : List String
  rows : List BindRow

/-- `OracleDbVectorStore.addTexts`, with the embeddings provider modelled as
`embed` and the UUID source as `uuid`. -/
def addTextsModel (embed : List String → List (List Float)) (texts : List String)
    (metadatas : Option (List JsObject)) (ids : Option (List String)) (uuid : Nat → String) :
    AddTextsRun :=
  let processed_ids := processedIds texts metadatas ids uuid
  let metadatas' := metadatas.getD (texts.map fun _ => [])
  let embeddings := embed texts
  { embedInputs := texts,
    rows := (mergeArraysToObject processed_ids texts metadatas' embeddings).map bindOfRecord }

/-! ## Distance-metric resolver (_get_distance_function)

The source keeps the mapping in a JavaScript object literal and tests
membership with the `in` operator.  `in` consults the prototype chain, so in
addition to the three own keys it is true for every property of
`Object.prototype`; for those names the subsequent indexing returns the
inherited member (a function or object), not one of the mapped tokens.  Both
levels are modelled: the raw string-level function below, and the enum-level
`distanceFunctionOf` used when the strategy comes typed out of the class
field. -/

def distanceStrategy2Function : List (String × String) :=
  [("EUCLIDEAN_DISTANCE", "EUCLIDEAN"), ("DOT_PRODUCT", "DOT"), ("COSINE", "COSINE")]

/-- The property names that `name in obj` finds on a plain object literal via
its prototype (`Object.prototype` in Node). -/
def objectPrototypeKeys : List String :=
  ["constructor", "hasOwnProperty", "isPrototypeOf", "propertyIsEnumerable",
   "toLocaleString", "toString", "valueOf",
   "__defineGetter__", "__defineSetter__", "__lookupGetter__", "__lookupSetter__", "__proto__"]

/-- The value produced by `distanceStrategy2Function[distanceStrategy]`:
either one of the mapped string tokens (own property) or an inherited
`Object.prototype` member, which is not a string. -/
inductive DistanceFunctionValue
  | token (s : String)
  | inheritedMember (name : String)
deriving DecidableEq

/-- `_get_distance_function` at runtime-string level: the `in` test succeeds
for the three own keys and for every `Object.prototype` property name; only
otherwise is the unsupported-strategy error thrown. -/
def getDistanceFunction (distanceStrategy : String) : Except String DistanceFunctionValue :=
  if (distanceStrategy2Function.lookup distanceStrategy).isSome
      || objectPrototypeKeys.contains distanceStrategy then
    match distanceStrategy2Function.lookup distanceStrategy with
    | some tok => .ok (.token tok)
    | none => .ok (.inheritedMember distanceStrategy)
  else .error ("Unsupported distance strategy: " ++ distanceStrategy)

/-- The `DistanceStrategy` string enum of the vector store. -/
inductive DistanceStrategy
  | EUCLIDEAN_DISTANCE
  | DOT_PRODUCT
  | COSINE
deriving DecidableEq

def distanceStrategyName : DistanceStrategy → String
  | .EUCLIDEAN_DISTANCE => "EUCLIDEAN_DISTANCE"
  | .DOT_PRODUCT => "DOT_PRODUCT"
  | .COSINE => "COSINE"

/-- `_get_distance_function` applied to a value of the enum type: always one
of the three own keys, so the lookup always yields its token. -/
def distanceFunctionOf (d : DistanceStrategy) : String :=
  (distanceStrategy2Function.lookup (distanceStrategyName d)).getD ""

/-! ## similaritySearchVectorWithScore (OracleDbVectorStore) -/

/-- A row of the search query's result set (with `fetchAsString` making the
CLOB a string; `METADATA` is `none` when the column is SQL NULL). -/
structure SqlRow where
  TEXT : String
  METADATA : Option String
  DISTANCE : Float

/-- The database connection, modelled as a function from the SQL text and the
bound query vector to the returned rows. -/
structure DbConn where
  execute : String → List Float → List SqlRow

structure SearchDoc where
  pageContent : String
  metadata : JsObject

/-- The SQL template of both search methods, with the distance function token
and the row count interpolated into the text (the vector is bound). -/
def searchSql (tableName distanceFunction : String) (k : Nat) : String :=
  "\n\t\t\tSELECT\n\t\t\t\tid,\n\t\t\t\ttext,\n\t\t\t\tmetadata,\n\t\t\t\tvector_distance(embedding, :embedding, "
    ++ distanceFunction ++ ") as distance\n\t\t\tFROM\n\t\t\t\t\"" ++ tableName
    ++ "\"\n\t\t\tORDER BY\n\t\t\t\tdistance\n\t\t\tFETCH APPROX FIRST " ++ toString k
    ++ " ROWS ONLY\n\t  "

/-- `row.METADATA ? JSON.parse(row.METADATA) : {}` — SQL NULL and the empty
string are both falsy and give the empty object; `JSON.parse` of the opaque
stored payload is the caller-supplied `jsonParse`. -/
def metadataOfColumn (jsonParse : String → JsObject) : Option String → JsObject
  | none => []
  | some s => if s = "" then [] else jsonParse s

/-- `OracleDbVectorStore.similaritySearchVectorWithScore`.  The `filter`
argument is accepted (the signature declares it) but no code path uses it;
the query vector is bound, the SQL is built from table name, strategy and
`k`, and the rows are mapped to document/score pairs. -/
def similaritySearchVectorWithScore (jsonParse : String → JsObject) (conn : DbConn)
    (tableName : String) (distanceStrategy : DistanceStrategy) (query : List Float) (k : Nat)
    (filter : Option JsObject) : List (SearchDoc × Float) :=
  let sqlQuery := searchSql tableName (distanceFunctionOf distanceStrategy) k
  let rows := conn.execute sqlQuery query
  rows.map fun row => (⟨row.TEXT, metadataOfColumn jsonParse row.METADATA⟩, row.DISTANCE)

/-! ## OciEmbeddings (OciEmbedings.ts) -/

/-- The `embeddings` field of a provider response as JavaScript sees it:
an array, `undefined` (field or whole path absent), or some other non-array
value, for which indexing `[0]` yields `undefined` without throwing. -/
inductive EmbeddingsValue
  | jsArray (rows : List (List Float))
  | jsUndefined
  | jsOtherNonArray

structure EmbedTextResultObj where
  embeddings : EmbeddingsValue

/-- A provider response; `embedTextResult` itself may be absent. -/
structure EmbedTextResponse where
  embedTextResult : Option EmbedTextResultObj

/-- `isArray(embedResponse?.embedTextResult?.embeddings)`: optional chaining
turns an absent path into `undefined`, and `isArray` is true only for a real
array. -/
def isArrayEmbeddings (resp : EmbedTextResponse) : Bool :=
  match resp.embedTextResult with
  | some r => match r.embeddings with
    | .jsArray _ => true
    | _ => false
  | none => false

def embeddingsRows (resp : EmbedTextResponse) : List (List Float) :=
  match resp.embedTextResult with
  | some r => match r.embeddings with
    | .jsArray rows => rows
    | _ => []
  | none => []

def BATCH_SIZE : Nat := 90

def embedErrorMessage : String := "Error in single batch embedding: worng respose format"

/-- The observable behaviour of one `embedDocuments` call: the `inputs` of the
`embedText` requests actually issued, in order, and the returned value or
thrown error. -/
structure EmbedDocumentsRun where
  requests : List (List String)
  result : Except String (List (List Float))

/-- The `for (const batch of batches)` loop of `embedDocuments`: each batch is
sent, a non-array response throws immediately (no further requests), and the
per-batch embedding lists are concatenated in batch order. -/
def embedBatchesGo (client : List String → EmbedTextResponse) :
    List (List String) → List (List String) → List (List Float) → EmbedDocumentsRun
  | [], reqs, acc => ⟨reqs, .ok acc⟩
  | b :: bs, reqs, acc =>
    let resp := client b
    if isArrayEmbeddings resp then
      embedBatchesGo client bs (reqs ++ [b]) (acc ++ embeddingsRows resp)
    else ⟨reqs ++ [b], .error embedErrorMessage⟩

/-- `filter(Boolean)` on an array of strings keeps exactly the non-empty
ones. -/
def jsTruthyString (s : String) : Bool := !(s == "")

/-- `OciEmbeddings.embedDocuments`: filter falsy entries; at most 90 remaining
texts go out as one request; otherwise consecutive slices of 90 are sent one
request per batch.  The provider client is the `embedText` call, keyed by the
request's `inputs`. -/
def embedDocumentsModel (client : List String → EmbedTextResponse) (documents : List String) :
    EmbedDocumentsRun :=
  let docs := documents.filter jsTruthyString
  if docs.length ≤ BATCH_SIZE then
    let resp := client docs
    if isArrayEmbeddings resp then ⟨[docs], .ok (embeddingsRows resp)⟩
    else ⟨[docs], .error embedErrorMessage⟩
  else
    embedBatchesGo client (chunksOfSucc 89 docs) [] []

/-- What `embedResponse.embedTextResult.embeddings[0]` evaluates to. -/
inductive EmbedQueryOutcome
  | ok (v : Option (List Float))
  | thrownTypeError

/-- `OciEmbeddings.embedQuery` after the provider call: no shape check is
performed.  An absent `embedTextResult` makes the `.embeddings` access throw a
TypeError; an `undefined` embeddings field makes the `[0]` index throw; any
other non-array value silently yields `undefined` (`ok none`); an array yields
its first element (`undefined` again if the array is empty). -/
def embedQueryModel (resp : EmbedTextResponse) : EmbedQueryOutcome :=
  match resp.embedTextResult with
  | none => .thrownTypeError
  | some r =>
    match r.embeddings with
    | .jsArray rows => .ok rows.head?
    | .jsUndefined => .thrownTypeError
    | .jsOtherNonArray => .ok none

/-! ## init and _table_exists (OracleDbVectorStore) -/

structure OraError where
  errorNum : Nat
deriving DecidableEq

/-- A database connection for the init path, as a map from SQL text to
success or an engine error. -/
structure OraConn where
  execute : String → Except OraError Unit

def countStarSql (tableName : String) : String :=
  "SELECT COUNT(*) FROM \"" ++ tableName ++ "\""

/-- `_table_exists`: a successful trivial read means the table exists;
error 942 (table or view does not exist) means it does not; every other
error is re-thrown. -/
def tableExistsModel (connection : OraConn) (tableName : String) : Except OraError Bool :=
  match connection.execute (countStarSql tableName) with
  | .ok _ => .ok true
  | .error e => if e.errorNum = 942 then .ok false else .error e

def createTableSql (tableName : String) (embeddingDim : Nat) : String :=
  "\n\t\tCREATE TABLE \"" ++ tableName
    ++ "\" (\n\t\t\tid RAW(16) DEFAULT SYS_GUID() PRIMARY KEY,\n\t\t\ttext CLOB,\n\t\t\tmetadata JSON,\n\t\t\tembedding VECTOR("
    ++ toString embeddingDim ++ ", FLOAT32)\n\t\t)\n\t"

/-- The duck-typed client accepted by `_get_connection`: an object with an
`execute` method (a connection), one with `getConnection` (a pool), or
anything else. -/
inductive OraClient
  | connection (c : OraConn)
  | pool (c : OraConn)
  | invalid

def getConnectionModel : OraClient → Except String OraConn
  | .connection c => .ok c
  | .pool c => .ok c
  | .invalid => .error "Invalid client type"

inductive InitError
  | invalidClient (msg : String)
  | ora (e : OraError)
  | embeddingsFailure (msg : String)
deriving DecidableEq

/-- The body of `init`'s `try` block: resolve the connection, check table
existence, and if the table is absent probe the embedding dimension
(`embedDim`, the result of `get_embedding_dimension`) and create the table.
Every failure escapes this block. -/
def initTryBlock (client : OraClient) (embedDim : Except String Nat) (tableName : String) :
    Except InitError Unit :=
  match getConnectionModel client with
  | .error m => .error (.invalidClient m)
  | .ok conn =>
    match tableExistsModel conn tableName with
    | .error e => .error (.ora e)
    | .ok true => .ok ()
    | .ok false =>
      match embedDim with
      | .error m => .error (.embeddingsFailure m)
      | .ok dim =>
        match conn.execute (createTableSql tableName dim) with
        | .error e => .error (.ora e)
        | .ok _ => .ok ()

/-- What a caller of `init` observes.  `init` wraps its whole body in
`try { ... } catch (error) { console.log(error); }`, so it always returns
normally; a swallowed error is only logged. -/
inductive InitOutcome
  | completed (swallowed : Option InitError)
deriving DecidableEq

def initModel (client : OraClient) (embedDim : Except String Nat) (tableName : String) :
    InitOutcome :=
  match initTryBlock client embedDim tableName with
  | .ok _ => .completed none
  | .error e => .completed (some e)

/-! ## ChatOci: the Cohere-format request assembly (_toOciCohereMessage and the
COHERE branch of _generate) -/

structure ToolCallM where
  id : String
  name : String
  args : JsObject

/-- The provider-agnostic message union handled by the translator. -/
inductive ChatMessage
  | human (content : String)
  | ai (content : String) (tool_calls : Option (List ToolCallM))
  | system (content : String)
  | tool (content : String) (tool_call_id : String)

structure CohereToolCallM where
  name : String
  parameters : JsObject

/-- A `CohereToolResult`: the nominal call (name reused as id, parameters
patched in later) and the outputs.  `JSON.parse(toolMessage.content)` produces
an opaque payload; it is modelled by carrying the raw content string. -/
structure CohereToolResultM where
  callName : String
  callParameters : JsObject
  outputs : String

inductive CohereMsg
  | user (message : String)
  | chatbot (message : String) (toolCalls : Option (List CohereToolCallM))
  | system (message : String)
  | toolMsg (toolResults : List CohereToolResultM)

/-- `_toOciCohereMessage` returns either a wire message object or, for an
assistant message with a non-empty tool-call list, the bare array of tool
calls. -/
inductive CohereItem
  | msg (m : CohereMsg)
  | rawToolCalls (tcs : List ToolCallM)

def toOciCohereMessage : ChatMessage → CohereItem
  | .human c => .msg (.user c)
  | .ai c tcs? =>
    match tcs? with
    | some (tc :: rest) => .rawToolCalls (tc :: rest)
    | _ => .msg (.chatbot c (tcs?.map (List.map fun tc => CohereToolCallM.mk tc.name tc.args)))
  | .system c => .msg (.system c)
  | .tool c id => .msg (.toolMsg [⟨id, [], c⟩])

/-- The assembled `CohereChatRequest` fields that the translation determines:
the standalone `message`, the `chatHistory`, and the `toolResults`. -/
structure CohereChatRequestM where
  message : String
  chatHistory : List CohereMsg
  toolResults : Option (List CohereToolResultM)

def itemToolResults : CohereItem → Option (List CohereToolResultM)
  | .msg (.toolMsg rs) => some rs
  | _ => none

def itemRawToolCalls : CohereItem → Option (List ToolCallM)
  | .rawToolCalls t => some t
  | _ => none

/-- The filter `!Array.isArray(message) && message.role !== "TOOL"` producing
`ociMessagesClean`. -/
def itemClean : CohereItem → Option CohereMsg
  | .rawToolCalls _ => none
  | .msg (.toolMsg _) => none
  | .msg m => some m

def defaultToolResult : CohereToolResultM := ⟨"", [], ""⟩

/-- The `toolResults` mapping of `_generate`: each collected TOOL wire message
contributes its (single) `toolResults[0]`, whose `call.parameters` is patched
from the assistant tool call whose id equals the result's call name. -/
def consolidateToolResults (toolCalls : List ToolCallM)
    (tms : List (List CohereToolResultM)) : List CohereToolResultM :=
  tms.map fun rs =>
    let tr := rs.headD defaultToolResult
    match toolCalls.find? (fun tc => tc.id == tr.callName) with
    | some tc => { tr with callParameters := tc.args }
    | none => tr

/-- The COHERE branch of `ChatOciGenerativeAi._generate`, up to the
construction of the chat request: map every input message through
`_toOciCohereMessage`; collect the TOOL messages and the last bare tool-call
array; drop both from the cleaned list; then either consolidate all tool
results into one trailing TOOL message, or (when there are none) pop a
trailing USER message into the standalone `message` field. -/
def cohereAssemble (messages : List ChatMessage) : CohereChatRequestM :=
  let ociMessages := messages.map toOciCohereMessage
  let toolMessages := ociMessages.filterMap itemToolResults
  let toolCalls := ((ociMessages.filterMap itemRawToolCalls).getLast?).getD []
  let clean := ociMessages.filterMap itemClean
  if toolMessages.isEmpty then
    match clean.getLast? with
    | some (.user m) => ⟨m, clean.dropLast, none⟩
    | _ => ⟨"", clean, none⟩
  else
    let toolResults := consolidateToolResults toolCalls toolMessages
    ⟨"", clean ++ [.toolMsg toolResults], some toolResults⟩

/-! ## SpeechTranscriptionOci: option defaults and the wait-for-result poll
loop -/

/-- The `default: 5` declared on the node's Poll Interval (Seconds) option. -/
def pollIntervalDeclaredDefault : Nat := 5

/-- The `default: 30` declared on the node's Max Wait (Minutes) option. -/
def maxWaitDeclaredDefault : Nat := 30

/-- The options collection as `execute` reads it: fields the user never set
are absent. -/
structure SpeechWaitOptions where
  pollIntervalSeconds : Option Nat
  maxWaitMinutes : Option Nat

/-- `(options.pollIntervalSeconds as number) ?? 2`. -/
def resolvedPollIntervalSeconds (o : SpeechWaitOptions) : Nat := o.pollIntervalSeconds.getD 2

/-- `(options.maxWaitMinutes as number) ?? 30`. -/
def resolvedMaxWaitMinutes (o : SpeechWaitOptions) : Nat := o.maxWaitMinutes.getD 30

def terminalStates : List String := ["SUCCEEDED", "FAILED", "CANCELED"]

def isTerminalState (s : String) : Bool := terminalStates.contains s

inductive PollLoopResult
  | timeoutError
  | finished (state : String) (polls : Nat)

/-- The `while` loop of the wait path: while the state is not terminal, first
compare the clock against the fixed deadline (throwing the timeout error past
it), then sleep one interval and poll the job again.  Time is modelled as
advancing by the sleep interval; `getState n` is the lifecycle state reported
by the (n+1)-th `getTranscriptionJob` call.  The fuel argument is an upper
bound on iterations making the model total; `none` means the fuel ran out
before the loop decided. -/
def pollLoopModel (getState : Nat → String) (intervalMs deadline : Nat) :
    Nat → Nat → Nat → String → Option PollLoopResult
  | 0, _, _, _ => none
  | fuel + 1, now, n, cur =>
    if isTerminalState cur then some (.finished cur n)
    else if now > deadline then some .timeoutError
    else pollLoopModel getState intervalMs deadline fuel (now + intervalMs) (n + 1) (getState n)

inductive WaitOutcome
  | timeout
  | jobFailed (state : String)
  | success (polls : Nat)
  | outOfFuel

/-- The wait-for-result path of `execute`: compute the deadline from the
resolved max wait, run the poll loop from the job's initial state, and after
a terminal state require `SUCCEEDED` (any other terminal state throws); only
then does the node proceed to fetch a result. -/
def waitForCompletionModel (getState : Nat → String) (opts : SpeechWaitOptions)
    (startMs : Nat) (initialState : String) (fuel : Nat) : WaitOutcome :=
  let deadline := startMs + resolvedMaxWaitMinutes opts * 60 * 1000
  match pollLoopModel getState (resolvedPollIntervalSeconds opts * 1000) deadline fuel
      startMs 0 initialState with
  | none => .outOfFuel
  | some .timeoutError => .timeout
  | some (.finished s n) => if s == "SUCCEEDED" then .success n else .jobFailed s

/-! ## privateKeyParse (utils.ts)

The normalizer works on JavaScript strings; it is embedded here over
`List Char`.  The regex
`-----BEGIN ([A-Z\s]+)-----([\s\S]*?)-----END \1-----` is matched with
JavaScript semantics: the match starts at the leftmost position where the
whole pattern can succeed; the greedy class `[A-Z\s]+` never contains `-`, so
at a given start the only viable first group is the maximal run of class
characters (any shorter choice is followed by another class character, never
by `-----`); the lazy `[\s\S]*?` makes the second group end at the first
occurrence of the backreferenced end marker. -/

/-- The JavaScript `\s` class (also the character set removed by `trim`):
space, tab, LF, VT, FF, CR, NBSP, and the Unicode space/line separators and
BOM. -/
def jsWs (c : Char) : Bool :=
  c == ' ' || c == '\t' || c == '\n' || c == '\r' ||
  c.toNat == 11 || c.toNat == 12 || c.toNat == 160 || c.toNat == 5760 ||
  (decide (8192 ≤ c.toNat) && decide (c.toNat ≤ 8202)) ||
  c.toNat == 8232 || c.toNat == 8233 || c.toNat == 8239 || c.toNat == 8287 ||
  c.toNat == 12288 || c.toNat == 65279

/-- `String.prototype.trim`. -/
def jsTrimList (l : List Char) : List Char :=
  ((l.dropWhile jsWs).reverse.dropWhile jsWs).reverse

/-- `replace(/\\n/g, '\n')`: every two-character sequence backslash-`n` is
replaced, left to right and without overlap, by a newline. -/
def replaceBackslashN : List Char → List Char
  | '\\' :: 'n' :: rest => '\n' :: replaceBackslashN rest
  | c :: rest => c :: replaceBackslashN rest
  | [] => []

/-- `replace(/[\s\r\n]/g, '')`: removes every whitespace character. -/
def stripWsList (l : List Char) : List Char := l.filter (fun c => !jsWs c)

/-- The class `[A-Z\s]` of the regex's first group. -/
def isTypeChar (c : Char) : Bool := (decide ('A' ≤ c) && decide (c ≤ 'Z')) || jsWs c

/-- Strips a literal off the front of a list, or fails. -/
def dropLit (lit l : List Char) : Option (List Char) :=
  if lit.isPrefixOf l then some (l.drop lit.length) else none

/-- The shortest prefix of the list after which the pattern occurs (the lazy
second group), or `none` when the pattern does not occur at all. -/
def splitAtFirstOccur (pat : List Char) : List Char → Option (List Char)
  | [] => if pat.isPrefixOf ([] : List Char) then some [] else none
  | c :: rest =>
    if pat.isPrefixOf (c :: rest) then some []
    else (splitAtFirstOccur pat rest).map (c :: ·)

/-- The backreferenced end marker `-----END \1-----` for a first group `t`. -/
def endTagChars (t : List Char) : List Char := "-----END ".data ++ t ++ "-----".data

/-- One attempt to match the envelope regex at the start of the list,
returning the two groups on success. -/
def envMatchAt (l : List Char) : Option (List Char × List Char) :=
  (dropLit "-----BEGIN ".data l).bind fun l1 =>
    let t := l1.takeWhile isTypeChar
    if t.isEmpty then none
    else
      (dropLit "-----".data (l1.dropWhile isTypeChar)).bind fun l2 =>
        (splitAtFirstOccur (endTagChars t) l2).map fun body => (t, body)

/-- `saneKey.match(regex)`: the leftmost position at which the envelope
matches, with its two groups. -/
def findEnvelope : List Char → Option (List Char × List Char)
  | [] => none
  | c :: rest =>
    match envMatchAt (c :: rest) with
    | some r => some r
    | none => findEnvelope rest

/-- `join('\n')` over the chunk list. -/
def joinNewline : List (List Char) → List Char
  | [] => []
  | [c] => c
  | c :: cs => c ++ '\n' :: joinNewline cs

/-- `body.match(/.{1,64}/g)?.join('\n')` rechunks the (already
whitespace-free) body into 64-character lines; on an empty body the match is
`null` and the template literal interpolates the text `undefined`. -/
def renderedBody (body : List Char) : List Char :=
  match chunksOfSucc 63 body with
  | [] => "undefined".data
  | c :: cs => joinNewline (c :: cs)

/-- `formatBody`: the template literal around the rechunked body. -/
def formatBodyList (body : List Char) (type : List Char) : List Char :=
  "-----BEGIN ".data ++ type ++ "-----".data ++ '\n' ::
    renderedBody body ++ '\n' :: "-----END ".data ++ type ++ "-----".data

/-- `privateKeyParse` over character lists: empty input short-circuits to the
empty output; otherwise the input is trimmed, escaped `\n` sequences become
newlines, and either the matched envelope's body is cleaned and re-wrapped
with the matched type, or (with a console warning) the whole cleaned input is
wrapped as `PRIVATE KEY`. -/
def privateKeyParseList (privateKey : List Char) : List Char :=
  if privateKey.isEmpty then []
  else
    let saneKey := replaceBackslashN (jsTrimList privateKey)
    match findEnvelope saneKey with
    | none => formatBodyList (stripWsList saneKey) "PRIVATE KEY".data
    | some (type, body) => formatBodyList (stripWsList body) type

def privateKeyParse (privateKey : String) : String := ⟨privateKeyParseList privateKey.data⟩

/-- No backslash immediately followed by the letter `n` occurs in the list:
the condition under which a further `replace(/\\n/g, ...)` pass is the
identity. -/
def noBackslashN : List Char → Bool
  | '\\' :: 'n' :: _ => false
  | _ :: rest => noBackslashN rest
  | [] => true

/-! ## Auxiliary predicates and stubs used by the statements -/

/-- Whether a provider-agnostic message is a tool-result message. -/
def isToolChatMessage : ChatMessage → Bool
  | .tool _ _ => true
  | _ => false

/-- The content of a tool-result message, when the message is one. -/
def toolContentOf : ChatMessage → Option String
  | .tool c _ => some c
  | _ => none

/-- A well-behaved embeddings provider stub: every request is answered with a
proper embeddings array holding one embedding (given by `g`) per input text,
in input order.  Used to state how `embedDocuments` assembles its output. -/
def arrayClientOf (g : String → List Float) : List String → EmbedTextResponse :=
  fun b => ⟨some ⟨.jsArray (b.map g)⟩⟩

/-! # Theorems -/

/-! ## General helper lemmas -/

theorem chunksOfSuccFuel_irrel (k : Nat) :
    ∀ (f1 : Nat) (l : List α) (f2 : Nat), l.length ≤ f1 → l.length ≤ f2 →
      chunksOfSuccFuel k f1 l = chunksOfSuccFuel k f2 l := by
  intro f1
  induction f1 with
  | zero =>
    intro l f2 h1 _
    have : l = [] := by cases l with
      | nil => rfl
      | cons a t => simp at h1
    subst this
    simp [chunksOfSuccFuel]
  | succ n ih =>
    intro l f2 h1 h2
    cases l with
    | nil => simp [chunksOfSuccFuel]
    | cons a t =>
      cases f2 with
      | zero => simp at h2
      | succ m =>
        show (a :: t.take k) :: chunksOfSuccFuel k n (t.drop k)
            = (a :: t.take k) :: chunksOfSuccFuel k m (t.drop k)
        have hd : (t.drop k).length ≤ n := by
          simp only [List.length_drop]
          simp only [List.length_cons] at h1
          omega
        have hd2 : (t.drop k).length ≤ m := by
          simp only [List.length_drop]
          simp only [List.length_cons] at h2
          omega
        rw [ih (t.drop k) m hd hd2]

theorem chunksOfSucc_cons (k : Nat) (a : α) (l : List α) :
    chunksOfSucc k (a :: l) = (a :: l.take k) :: chunksOfSucc k (l.drop k) := by
  show chunksOfSuccFuel k (l.length + 1) (a :: l) = _
  show (a :: l.take k) :: chunksOfSuccFuel k l.length (l.drop k) = _
  rw [chunksOfSuccFuel_irrel k l.length (l.drop k) (l.drop k).length
    (by simp [List.length_drop]) le_rfl]
  rfl

theorem flatten_chunksOfSucc (k : Nat) (l : List α) : (chunksOfSucc k l).flatten = l := by
  have main : ∀ (n : Nat) (l : List α), l.length ≤ n → (chunksOfSucc k l).flatten = l := by
    intro n
    induction n with
    | zero =>
      intro l h
      have : l = [] := by cases l with
        | nil => rfl
        | cons a t => simp at h
      subst this; rfl
    | succ n ih =>
      intro l h
      cases l with
      | nil => rfl
      | cons a t =>
        rw [chunksOfSucc_cons]
        simp only [List.flatten_cons]
        rw [ih (t.drop k) (by simp only [List.length_drop]; simp only [List.length_cons] at h; omega)]
        simp [List.take_append_drop]
  exact main l.length l le_rfl

theorem length_chunksOfSucc (k : Nat) (l : List α) :
    (chunksOfSucc k l).length = (l.length + k) / (k + 1) := by
  have main : ∀ (n : Nat) (l : List α), l.length ≤ n →
      (chunksOfSucc k l).length = (l.length + k) / (k + 1) := by
    intro n
    induction n with
    | zero =>
      intro l h
      have : l = [] := by cases l with
        | nil => rfl
        | cons a t => simp at h
      subst this
      simp [chunksOfSucc, chunksOfSuccFuel, Nat.div_eq_of_lt (Nat.lt_succ_self k)]
    | succ n ih =>
      intro l h
      cases l with
      | nil => simp [chunksOfSucc, chunksOfSuccFuel, Nat.div_eq_of_lt (Nat.lt_succ_self k)]
      | cons a t =>
        rw [chunksOfSucc_cons]
        simp only [List.length_cons]
        rw [ih (t.drop k) (by simp only [List.length_drop]; simp only [List.length_cons] at h; omega)]
        simp only [List.length_drop]
        have hrw : t.length + 1 + k = (t.length - k + k) + (k + 1) ∨ t.length < k := by omega
        rcases Nat.lt_or_ge t.length k with hlt | hge
        · have h0 : (t.length - k + k) / (k + 1) = 0 := Nat.div_eq_of_lt (by omega)
          have h1 : (t.length + 1 + k) / (k + 1) = 1 := by
            rw [show t.length + 1 + k = t.length + (k + 1) by omega,
              Nat.add_div_right _ (Nat.succ_pos k), Nat.div_eq_of_lt (by omega)]
          omega
        · have heq : t.length - k + k = t.length := by omega
          rw [heq, show t.length + 1 + k = t.length + (k + 1) by omega,
            Nat.add_div_right _ (Nat.succ_pos k)]
  exact main l.length l le_rfl

theorem mem_chunksOfSucc_le (k : Nat) (l : List α) :
    ∀ x ∈ chunksOfSucc k l, x.length ≤ k + 1 := by
  have main : ∀ (n : Nat) (l : List α), l.length ≤ n →
      ∀ x ∈ chunksOfSucc k l, x.length ≤ k + 1 := by
    intro n
    induction n with
    | zero =>
      intro l h x hx
      have : l = [] := by cases l with
        | nil => rfl
        | cons a t => simp at h
      subst this; simp [chunksOfSucc, chunksOfSuccFuel] at hx
    | succ n ih =>
      intro l h x hx
      cases l with
      | nil => simp [chunksOfSucc, chunksOfSuccFuel] at hx
      | cons a t =>
        rw [chunksOfSucc_cons] at hx
        rcases List.mem_cons.mp hx with rfl | hx'
        · simp [List.length_take]
        · exact ih (t.drop k)
            (by simp only [List.length_drop]; simp only [List.length_cons] at h; omega) x hx'
  exact main l.length l le_rfl

theorem mem_chunksOfSucc_subset (k : Nat) (l : List α) :
    ∀ x ∈ chunksOfSucc k l, ∀ c ∈ x, c ∈ l := by
  have main : ∀ (n : Nat) (l : List α), l.length ≤ n →
      ∀ x ∈ chunksOfSucc k l, ∀ c ∈ x, c ∈ l := by
    intro n
    induction n with
    | zero =>
      intro l h x hx
      have : l = [] := by cases l with
        | nil => rfl
        | cons a t => simp at h
      subst this; simp [chunksOfSucc, chunksOfSuccFuel] at hx
    | succ n ih =>
      intro l h x hx c hc
      cases l with
      | nil => simp [chunksOfSucc, chunksOfSuccFuel] at hx
      | cons a t =>
        rw [chunksOfSucc_cons] at hx
        rcases List.mem_cons.mp hx with rfl | hx'
        · rcases List.mem_cons.mp hc with rfl | hc'
          · exact List.mem_cons_self _ _
          · exact List.mem_cons_of_mem _ (List.take_subset k t hc')
        · have := ih (t.drop k)
            (by simp only [List.length_drop]; simp only [List.length_cons] at h; omega) x hx' c hc
          exact List.mem_cons_of_mem _ (List.drop_subset k t this)
  exact main l.length l le_rfl

/-! ## SHA-256 validation against the standard test vectors -/

theorem sha256Hex_abc :
    sha256Hex "abc" = "ba7816bf8f01cfea414140de5dae2223b00361a396177a9cb410ff61f20015ad" := by decide

theorem sha256Hex_empty :
    sha256Hex "" = "e3b0c44298fc1c149afbf4c8996fb92427ae41e4649b934ca495991b7852b855" := by decide

theorem wordHex_length (w : Nat) : (wordHex w).length = 8 := rfl

/-! ## C2 -/

/-- C2: for every query vector `q`, every row count `k`, and any two filter
arguments `f1` and `f2`, `similaritySearchVectorWithScore q k f1` and
`similaritySearchVectorWithScore q k f2` return the same result: the filter
parameter is accepted but has no effect on the search output (the SQL, the
binds and the row mapping are all built without it). -/
theorem similaritySearch_filter_invariant (jsonParse : String → JsObject) (conn : DbConn)
    (tableName : String) (d : DistanceStrategy) (q : List Float) (k : Nat)
    (f1 f2 : Option JsObject) :
    similaritySearchVectorWithScore jsonParse conn tableName d q k f1 =
      similaritySearchVectorWithScore jsonParse conn tableName d q k f2 := rfl

/-! ## C7 -/

/-- C7: the three declared strategies resolve to their distinct non-empty
tokens and an ordinary unrecognized value raises the unsupported-strategy
error naming it; but the resolver does not raise on every other input: a
value naming an `Object.prototype` property (here `"toString"`) passes the
`in` membership test through the prototype chain and the inherited member is
returned instead of the error. -/
theorem distance_resolver_prototype_leak :
    getDistanceFunction "EUCLIDEAN_DISTANCE" = .ok (.token "EUCLIDEAN") ∧
    getDistanceFunction "DOT_PRODUCT" = .ok (.token "DOT") ∧
    getDistanceFunction "COSINE" = .ok (.token "COSINE") ∧
    getDistanceFunction "MANHATTAN" = .error "Unsupported distance strategy: MANHATTAN" ∧
    getDistanceFunction "toString" = .ok (.inheritedMember "toString") ∧
    distanceFunctionOf .EUCLIDEAN_DISTANCE = "EUCLIDEAN" ∧
    distanceFunctionOf .DOT_PRODUCT = "DOT" ∧
    distanceFunctionOf .COSINE = "COSINE" :=
  ⟨rfl, rfl, rfl, rfl, rfl, rfl, rfl, rfl⟩

/-! ## C4 -/

/-- C4 counterexample: a connection whose trivial read fails with engine error
600 (not 942).  `_table_exists` re-throws the error, but `init` catches and
swallows it (logging only), completing normally: the failure does not
propagate to the caller of `init`. -/
theorem init_swallows_non942_counterexample :
    tableExistsModel ⟨fun _ => .error ⟨600⟩⟩ "T" = .error ⟨600⟩ ∧
    initModel (.connection ⟨fun _ => .error ⟨600⟩⟩) (.ok 3) "T" =
      .completed (some (.ora ⟨600⟩)) :=
  ⟨rfl, rfl⟩

/-- C4 (amended): during init's table-existence check, error 942 is mapped to
"table absent" and every other database failure is re-thrown by
`_table_exists` and escapes init's try block — but init's catch swallows every
such failure (it is only logged), so init always completes normally and no
failure propagates to init's caller. -/
theorem tableExists_942_init_swallows (conn : OraConn) (t : String)
    (dim : Except String Nat) (e : OraError) :
    (conn.execute (countStarSql t) = .ok () → tableExistsModel conn t = .ok true) ∧
    (conn.execute (countStarSql t) = .error e → e.errorNum = 942 →
      tableExistsModel conn t = .ok false) ∧
    (conn.execute (countStarSql t) = .error e → e.errorNum ≠ 942 →
      tableExistsModel conn t = .error e ∧
      initTryBlock (.connection conn) dim t = .error (.ora e) ∧
      initModel (.connection conn) dim t = .completed (some (.ora e))) := by
  refine ⟨?_, ?_, ?_⟩
  · intro h
    simp [tableExistsModel, h]
  · intro h h942
    simp [tableExistsModel, h, h942]
  · intro h h942
    have h1 : tableExistsModel conn t = .error e := by
      simp [tableExistsModel, h, h942]
    refine ⟨h1, ?_, ?_⟩
    · simp [initTryBlock, getConnectionModel, h1]
    · simp [initModel, initTryBlock, getConnectionModel, h1]

/-- C4 witness: the amended statement applied to the concrete failing
connection. -/
theorem tableExists_942_init_swallows_witness :
    tableExistsModel ⟨fun _ => .error ⟨601⟩⟩ "DOCS" = .error ⟨601⟩ ∧
    initModel (.connection ⟨fun _ => .error ⟨601⟩⟩) (.ok 3) "DOCS" =
      .completed (some (.ora ⟨601⟩)) := by
  have h := (tableExists_942_init_swallows ⟨fun _ => .error ⟨601⟩⟩ "DOCS" (.ok 3) ⟨601⟩).2.2
    rfl (by decide)
  exact ⟨h.1, h.2.2⟩

/-! ## C3 -/

/-- C3 counterexample: a provider response whose `embeddings` field is present
but is not an array.  `embedQuery` does not raise a shape-validation error
there: indexing the non-array value yields `undefined`, which is silently
returned.  (`embedDocuments`, for contrast, does raise its explicit error on
the same response.) -/
theorem embedQuery_silent_nonarray_counterexample :
    embedQueryModel ⟨some ⟨.jsOtherNonArray⟩⟩ = .ok none ∧
    (embedDocumentsModel (fun _ => ⟨some ⟨.jsOtherNonArray⟩⟩) ["x"]).result =
      .error embedErrorMessage :=
  ⟨rfl, rfl⟩

/-- C3 (amended): `embedDocuments` raises the explicit shape-validation error
whenever the provider response does not carry an embeddings array, on both the
single-batch and the multi-batch path; `embedQuery` performs no shape
validation at all: an absent `embedTextResult` or an `undefined` embeddings
field throws a generic property-access TypeError, and any other non-array
embeddings value is silently indexed, returning `undefined`. -/
theorem embed_shape_validation (client : List String → EmbedTextResponse)
    (documents : List String) (resp : EmbedTextResponse) (r : EmbedTextResultObj) :
    ((∀ b, isArrayEmbeddings (client b) = false) →
      (embedDocumentsModel client documents).result = .error embedErrorMessage) ∧
    (resp.embedTextResult = none → embedQueryModel resp = .thrownTypeError) ∧
    (r.embeddings = .jsUndefined → embedQueryModel ⟨some r⟩ = .thrownTypeError) ∧
    (r.embeddings = .jsOtherNonArray → embedQueryModel ⟨some r⟩ = .ok none) := by
  refine ⟨?_, ?_, ?_, ?_⟩
  · intro hbad
    unfold embedDocumentsModel
    by_cases hle : (documents.filter jsTruthyString).length ≤ BATCH_SIZE
    · simp [hle, hbad]
    · simp only [hle, if_false]
      have hne : documents.filter jsTruthyString ≠ [] := by
        intro hnil
        rw [hnil] at hle
        simp [BATCH_SIZE] at hle
      obtain ⟨a, l, hcons⟩ : ∃ a l, documents.filter jsTruthyString = a :: l := by
        cases hc : documents.filter jsTruthyString with
        | nil => exact absurd hc hne
        | cons a l => exact ⟨a, l, rfl⟩
      rw [hcons, chunksOfSucc_cons]
      simp [embedBatchesGo, hbad]
  · intro h
    simp [embedQueryModel, h]
  · intro h
    simp [embedQueryModel, h]
  · intro h
    simp [embedQueryModel, h]

/-- C3 witness: the amended statement applied to a concrete bad client and
concrete malformed responses. -/
theorem embed_shape_validation_witness :
    (embedDocumentsModel (fun _ => ⟨some ⟨.jsUndefined⟩⟩) ["x", "y"]).result =
      .error embedErrorMessage ∧
    embedQueryModel ⟨none⟩ = .thrownTypeError ∧
    embedQueryModel ⟨some ⟨.jsUndefined⟩⟩ = .thrownTypeError := by
  have h := embed_shape_validation (fun _ => ⟨some ⟨.jsUndefined⟩⟩) ["x", "y"] ⟨none⟩
    ⟨.jsUndefined⟩
  exact ⟨h.1 (fun b => rfl), h.2.1 rfl, h.2.2.1 rfl⟩

/-! ## C1 -/

theorem sha256Hex_data_length (s : String) : (sha256Hex s).data.length = 64 := by
  simp [sha256Hex, List.length_append, wordHex_length]

/-- C1: `addTexts` derives one 16-hex-character identifier per record as the
uppercased first 16 hex characters of the SHA-256 digest of the source
string, with source precedence (a) each explicit id when a non-empty ids list
is given (independently of the UUID supply, hence identical across runs),
(b) otherwise each metadata `id` field when every metadata entry carries one,
(c) otherwise one fresh random UUID per text; on the random path the ids are
the hashes of the drawn UUIDs, so two runs drawing different UUIDs produce
different ids (shown at two concrete UUID supplies). -/
theorem addTexts_id_derivation :
    (∀ (texts : List String) (metadatas : Option (List JsObject)) (ids : List String)
        (uuid1 uuid2 : Nat → String), 0 < ids.length →
      processedIds texts metadatas (some ids) uuid1 = ids.map jsHash16 ∧
      processedIds texts metadatas (some ids) uuid1 =
        processedIds texts metadatas (some ids) uuid2) ∧
    (∀ (texts : List String) (metadatas : List JsObject) (ids : Option (List String))
        (uuid : Nat → String),
      (ids = none ∨ ids = some []) → (∀ m ∈ metadatas, metaHasId m = true) →
      processedIds texts (some metadatas) ids uuid =
        metadatas.map (fun m => jsHash16 (metaIdValue m))) ∧
    (∀ (texts : List String) (metadatas : Option (List JsObject))
        (ids : Option (List String)) (uuid : Nat → String),
      allMetadatasHaveId metadatas = false → (ids = none ∨ ids = some []) →
      processedIds texts metadatas ids uuid =
        (List.range texts.length).map (fun i => jsHash16 (uuid i))) ∧
    (∀ s, (jsHash16 s).data.length = 16) ∧
    jsHash16 "a" = "CA978112CA1BBDCA" ∧
    processedIds ["x"] none none (fun _ => "00000000-0000-4000-8000-000000000001") ≠
      processedIds ["x"] none none (fun _ => "00000000-0000-4000-8000-000000000002") := by
  refine ⟨?_, ?_, ?_, ?_, by decide, by decide⟩
  · intro texts metadatas ids uuid1 uuid2 h
    have hp : idsProvided (some ids) = true := by
      simp only [idsProvided, decide_eq_true_eq]; exact h
    exact ⟨by simp [processedIds, hp], by simp [processedIds, hp]⟩
  · intro texts metadatas ids uuid hids h
    have hp : idsProvided ids = false := by rcases hids with rfl | rfl <;> rfl
    have hall : allMetadatasHaveId (some metadatas) = true := by
      simp only [allMetadatasHaveId, List.all_eq_true]; exact h
    simp [processedIds, hp, hall]
  · intro texts metadatas ids uuid hmeta hids
    have hp : idsProvided ids = false := by rcases hids with rfl | rfl <;> rfl
    simp [processedIds, hp, hmeta, List.map_map, Function.comp]
  · intro s
    show (((sha256Hex s).data.take 16).map jsCharUpper).length = 16
    rw [List.length_map, List.length_take, sha256Hex_data_length]
    omega

/-- C1 witness: the explicit-ids branch applied at a concrete call. -/
theorem addTexts_id_derivation_witness :
    0 < (["a", "b"] : List String).length ∧
    processedIds ["t1", "t2"] none (some ["a", "b"]) (fun _ => "u") =
      ["a", "b"].map jsHash16 :=
  ⟨by decide,
    (addTexts_id_derivation.1 ["t1", "t2"] none ["a", "b"] (fun _ => "u") (fun _ => "u")
      (by decide)).1⟩

/-! ## C10 -/

theorem range_map_get?_eq (l : List α) : ∀ k : Nat, k ≤ l.length →
    (List.range k).map (fun i => l.get? i) = (l.take k).map some := by
  induction l with
  | nil =>
    intro k h
    have hk : k = 0 := by simpa using h
    subst hk; rfl
  | cons a t ih =>
    intro k h
    cases k with
    | zero => rfl
    | succ k' =>
      have h' : k' ≤ t.length := by simpa using h
      rw [List.range_succ_eq_map, List.take_succ_cons]
      simp only [List.map_cons, List.map_map]
      refine congrArg (List.cons (some a)) ?_
      rw [show ((fun i => (a :: t).get? i) ∘ Nat.succ) = (fun i => t.get? i) from
        funext fun i => rfl]
      exact ih k' h'

/-- C10: when `addTexts` receives a non-empty explicit ids list shorter than
the texts list, the row batch built for the insert has exactly `ids.length`
rows, holding exactly the first `ids.length` texts (the texts beyond that are
silently dropped from the insert), while the embedDocuments call still
receives every text. -/
theorem addTexts_short_ids_drop_rows (embed : List String → List (List Float))
    (texts ids : List String) (metadatas : Option (List JsObject)) (uuid : Nat → String)
    (hpos : 0 < ids.length) (hlt : ids.length < texts.length) :
    (addTextsModel embed texts metadatas (some ids) uuid).rows.length = ids.length ∧
    (addTextsModel embed texts metadatas (some ids) uuid).rows.map (fun r => r.text) =
      (texts.take ids.length).map some ∧
    (addTextsModel embed texts metadatas (some ids) uuid).embedInputs = texts := by
  have hp : processedIds texts metadatas (some ids) uuid = ids.map jsHash16 := by
    have h1 : idsProvided (some ids) = true := by
      simp only [idsProvided, decide_eq_true_eq]; exact hpos
    simp [processedIds, h1]
  refine ⟨?_, ?_, rfl⟩
  · simp only [addTextsModel, hp]
    simp [mergeArraysToObject, List.length_map, List.enum_length]
  · simp only [addTextsModel, hp]
    simp only [mergeArraysToObject, List.map_map]
    have hstep :
        List.map ((fun r => r.text) ∘ bindOfRecord ∘
            fun p : Nat × String =>
              MergedRecord.mk p.2 (texts.get? p.1) ((metadatas.getD (texts.map fun _ => [])).get? p.1)
                ((embed texts).get? p.1))
          (ids.map jsHash16).enum =
        List.map (fun p : Nat × String => texts.get? p.1) (ids.map jsHash16).enum := by
      exact List.map_congr_left (fun p _ => rfl)
    rw [hstep, List.enum_eq_zip_range]
    rw [show (fun p : Nat × String => texts.get? p.1) =
      (fun i => texts.get? i) ∘ Prod.fst from rfl]
    rw [← List.map_map]
    rw [List.map_fst_zip _ _ (by rw [List.length_range])]
    rw [List.length_map]
    exact range_map_get?_eq texts ids.length (Nat.le_of_lt hlt)

/-- C10 witness: two texts, one explicit id. -/
theorem addTexts_short_ids_drop_rows_witness :
    (addTextsModel (fun l => l.map fun _ => []) ["t1", "t2"] none (some ["a"])
      (fun _ => "u")).rows.length = 1 ∧
    (addTextsModel (fun l => l.map fun _ => []) ["t1", "t2"] none (some ["a"])
      (fun _ => "u")).rows.map (fun r => r.text) = (["t1", "t2"].take 1).map some ∧
    (addTextsModel (fun l => l.map fun _ => []) ["t1", "t2"] none (some ["a"])
      (fun _ => "u")).embedInputs = ["t1", "t2"] :=
  addTexts_short_ids_drop_rows (fun l => l.map fun _ => []) ["t1", "t2"] ["a"] none
    (fun _ => "u") (by decide) (by decide)

/-! ## C9 -/

theorem embedBatchesGo_arrayClient (g : String → List Float) :
    ∀ (bs reqs : List (List String)) (acc : List (List Float)),
      embedBatchesGo (arrayClientOf g) bs reqs acc =
        ⟨reqs ++ bs, .ok (acc ++ (bs.map (fun b => b.map g)).flatten)⟩ := by
  intro bs
  induction bs with
  | nil => intro reqs acc; simp [embedBatchesGo]
  | cons b bs ih =>
    intro reqs acc
    show embedBatchesGo (arrayClientOf g) bs (reqs ++ [b]) (acc ++ b.map g) = _
    rw [ih]
    simp [List.append_assoc]

/-- C9: `embedDocuments` first removes falsy entries, then issues exactly one
provider request over the whole filtered list when it has at most 90 texts and
otherwise one request per consecutive 90-sized chunk (`ceil(n/90)` requests),
every request carrying at most 90 texts, and returns the per-batch embedding
lists concatenated in batch order, so the output embeds the filtered texts in
input order. -/
theorem embedDocuments_batching (g : String → List Float) (documents : List String) :
    (embedDocumentsModel (arrayClientOf g) documents).result =
      .ok ((documents.filter jsTruthyString).map g) ∧
    (embedDocumentsModel (arrayClientOf g) documents).requests =
      (if (documents.filter jsTruthyString).length ≤ 90 then [documents.filter jsTruthyString]
       else chunksOfSucc 89 (documents.filter jsTruthyString)) ∧
    (embedDocumentsModel (arrayClientOf g) documents).requests.length =
      max 1 (((documents.filter jsTruthyString).length + 89) / 90) ∧
    (embedDocumentsModel (arrayClientOf g) documents).requests.all
      (fun b => decide (b.length ≤ 90)) = true ∧
    (embedDocumentsModel (arrayClientOf g) documents).requests.flatten =
      documents.filter jsTruthyString := by
  by_cases hle : (documents.filter jsTruthyString).length ≤ 90
  · have hrun : embedDocumentsModel (arrayClientOf g) documents =
        ⟨[documents.filter jsTruthyString], .ok ((documents.filter jsTruthyString).map g)⟩ := by
      simp [embedDocumentsModel, BATCH_SIZE, hle, arrayClientOf, isArrayEmbeddings,
        embeddingsRows]
    rw [hrun]
    refine ⟨rfl, by simp [hle], ?_, ?_, by simp⟩
    · have hdiv : ((documents.filter jsTruthyString).length + 89) / 90 < 2 := by
        rw [Nat.div_lt_iff_lt_mul (by norm_num)]
        omega
      simp only [List.length_cons, List.length_nil]
      omega
    · simp only [List.all_cons, List.all_nil, Bool.and_true, decide_eq_true_eq]
      exact hle
  · have hrun : embedDocumentsModel (arrayClientOf g) documents =
        ⟨chunksOfSucc 89 (documents.filter jsTruthyString),
          .ok (((chunksOfSucc 89 (documents.filter jsTruthyString)).map
            (fun b => b.map g)).flatten)⟩ := by
      simp only [embedDocumentsModel, BATCH_SIZE]
      rw [if_neg hle]
      rw [embedBatchesGo_arrayClient]
      simp
    rw [hrun]
    refine ⟨?_, by simp [hle], ?_, ?_, flatten_chunksOfSucc 89 _⟩
    · rw [← List.map_flatten, flatten_chunksOfSucc]
    · rw [length_chunksOfSucc]
      have h1 : 1 ≤ ((documents.filter jsTruthyString).length + 89) / 90 := by
        rw [Nat.le_div_iff_mul_le (by norm_num)]
        omega
      omega
    · rw [List.all_eq_true]
      intro x hx
      simpa using mem_chunksOfSucc_le 89 _ x hx

/-! ## C6 -/

theorem pollLoop_never_terminal_timeout (getState : Nat → String) (intervalMs deadline : Nat)
    (hstates : ∀ k, isTerminalState (getState k) = false) :
    ∀ (fuel now n : Nat) (cur : String), isTerminalState cur = false →
      deadline < now + intervalMs * fuel →
      pollLoopModel getState intervalMs deadline (fuel + 1) now n cur =
        some .timeoutError := by
  intro fuel
  induction fuel with
  | zero =>
    intro now n cur hcur hd
    have hgt : now > deadline := by simpa using hd
    simp [pollLoopModel, hcur, hgt]
  | succ m ih =>
    intro now n cur hcur hd
    by_cases hnow : now > deadline
    · simp [pollLoopModel, hcur, hnow]
    · rw [Nat.mul_succ] at hd
      have hrec : deadline < (now + intervalMs) + intervalMs * m := by omega
      simp only [pollLoopModel, hcur, Bool.false_eq_true, if_false, hnow]
      exact ih (now + intervalMs) (n + 1) (getState n) (hstates n) hrec

theorem pollLoop_finished_terminal (getState : Nat → String) (intervalMs deadline : Nat) :
    ∀ (fuel now n : Nat) (cur s : String) (m : Nat),
      pollLoopModel getState intervalMs deadline fuel now n cur = some (.finished s m) →
      isTerminalState s = true := by
  intro fuel
  induction fuel with
  | zero => intro now n cur s m h; simp [pollLoopModel] at h
  | succ f ih =>
    intro now n cur s m h
    by_cases hcur : isTerminalState cur = true
    · simp [pollLoopModel, hcur] at h
      rw [← h.1]
      exact hcur
    · rw [Bool.not_eq_true] at hcur
      by_cases hnow : now > deadline
      · simp [pollLoopModel, hcur, hnow] at h
      · simp only [pollLoopModel, hcur, Bool.false_eq_true, if_false, hnow] at h
        exact ih _ _ _ _ _ h

/-- C6: the wait-for-result loop re-evaluates the fixed wall-clock deadline on
every iteration and fails with the timeout error once it has elapsed without a
terminal state; it can only hand a state back after the loop when that state
is terminal, and only `SUCCEEDED` proceeds (no partial result).  The deadline
default is the declared 30 minutes; the poll interval, however, falls back to
2 seconds when the option is absent, while the node declares a default of 5
seconds (the code bug this claim trips over). -/
theorem speech_poll_defaults_and_timeout (getState : Nat → String) (opts : SpeechWaitOptions)
    (startMs fuel : Nat) (initialState : String)
    (intervalMs deadline now n m : Nat) (cur s : String) :
    resolvedPollIntervalSeconds ⟨none, none⟩ = 2 ∧
    pollIntervalDeclaredDefault = 5 ∧
    resolvedMaxWaitMinutes ⟨none, none⟩ = 30 ∧
    maxWaitDeclaredDefault = 30 ∧
    ((∀ k, isTerminalState (getState k) = false) → isTerminalState initialState = false →
      startMs + resolvedMaxWaitMinutes opts * 60 * 1000 <
        startMs + resolvedPollIntervalSeconds opts * 1000 * fuel →
      waitForCompletionModel getState opts startMs initialState (fuel + 1) = .timeout) ∧
    (pollLoopModel getState intervalMs deadline fuel now n cur = some (.finished s m) →
      isTerminalState s = true) ∧
    (waitForCompletionModel getState opts startMs initialState fuel = .success m →
      pollLoopModel getState (resolvedPollIntervalSeconds opts * 1000)
        (startMs + resolvedMaxWaitMinutes opts * 60 * 1000) fuel startMs 0 initialState =
        some (.finished "SUCCEEDED" m)) := by
  refine ⟨rfl, rfl, rfl, rfl, ?_, ?_, ?_⟩
  · intro hstates hinit hdl
    simp only [waitForCompletionModel]
    rw [pollLoop_never_terminal_timeout getState _ _ hstates fuel startMs 0 initialState hinit
      hdl]
  · exact pollLoop_finished_terminal getState intervalMs deadline fuel now n cur s m
  · intro h
    simp only [waitForCompletionModel] at h
    cases hpoll : pollLoopModel getState (resolvedPollIntervalSeconds opts * 1000)
        (startMs + resolvedMaxWaitMinutes opts * 60 * 1000) fuel startMs 0 initialState with
    | none => rw [hpoll] at h; simp at h
    | some r =>
      rw [hpoll] at h
      cases r with
      | timeoutError => simp at h
      | finished st k =>
        by_cases hst : st == "SUCCEEDED"
        · have hsteq : st = "SUCCEEDED" := by simpa using hst
        
          subst hsteq
          simp only [hst, if_true] at h
          cases h
          rfl
        · simp only [hst, Bool.false_eq_true, if_false] at h
          cases h

/-- C6 witness: the stub that never reaches a terminal state, with a zero-
minute deadline, times out. -/
theorem speech_poll_defaults_and_timeout_witness :
    waitForCompletionModel (fun _ => "IN_PROGRESS") ⟨none, some 0⟩ 0 "ACCEPTED" 2 =
      .timeout := by
  have h := speech_poll_defaults_and_timeout (fun _ => "IN_PROGRESS") ⟨none, some 0⟩ 0 1
    "ACCEPTED" 0 0 0 0 0 "" ""
  exact h.2.2.2.2.1 (fun k => rfl) rfl (by decide)

/-! ## C5 -/

theorem eq_dropLast_concat_of_getLast? (l : List α) (a : α) (h : l.getLast? = some a) :
    l = l.dropLast ++ [a] := by
  cases l using List.reverseRecOn with
  | nil => simp at h
  | append_singleton l b =>
    rw [List.getLast?_concat] at h
    have hb : b = a := by simpa using h
    subst hb
    rw [List.dropLast_concat]

theorem filterMap_itemToolResults_map (messages : List ChatMessage) :
    (messages.map toOciCohereMessage).filterMap itemToolResults =
      messages.filterMap (fun m => match m with
        | .tool c i => some [CohereToolResultM.mk i [] c]
        | _ => none) := by
  rw [List.filterMap_map]
  congr 1
  funext m
  cases m with
  | human c => rfl
  | system c => rfl
  | tool c i => rfl
  | ai c tcs =>
    cases tcs with
    | none => rfl
    | some l =>
      cases l with
      | nil => rfl
      | cons x xs => rfl

theorem no_tool_filterMap_nil (messages : List ChatMessage)
    (hall : messages.all (fun m => !isToolChatMessage m) = true) :
    (messages.map toOciCohereMessage).filterMap itemToolResults = [] := by
  rw [filterMap_itemToolResults_map, List.filterMap_eq_nil_iff]
  intro m hm
  have hmem := List.all_eq_true.mp hall m hm
  cases m with
  | human c => rfl
  | system c => rfl
  | ai c tcs => rfl
  | tool c i => simp [isToolChatMessage] at hmem

theorem clean_concat_user (L : List ChatMessage) (t : String) :
    ((L ++ [ChatMessage.human t]).map toOciCohereMessage).filterMap itemClean =
      ((L.map toOciCohereMessage).filterMap itemClean) ++ [CohereMsg.user t] := by
  rw [List.map_append, List.filterMap_append]
  rfl

theorem consolidate_outputs (tc : List ToolCallM) (tms : List (List CohereToolResultM)) :
    (consolidateToolResults tc tms).map (fun r => r.outputs) =
      tms.map (fun rs => (rs.headD defaultToolResult).outputs) := by
  unfold consolidateToolResults
  rw [List.map_map]
  apply List.map_congr_left
  intro rs _
  simp only [Function.comp_apply]
  cases tc.find? (fun c => c.id == (rs.headD defaultToolResult).callName) <;> rfl

theorem consolidate_length (tc : List ToolCallM) (tms : List (List CohereToolResultM)) :
    (consolidateToolResults tc tms).length = tms.length := by
  unfold consolidateToolResults
  exact List.length_map _ _

theorem tms_outputs (messages : List ChatMessage) :
    ((messages.map toOciCohereMessage).filterMap itemToolResults).map
      (fun rs => (rs.headD defaultToolResult).outputs) = messages.filterMap toolContentOf := by
  rw [filterMap_itemToolResults_map, List.map_filterMap]
  congr 1
  funext m
  cases m with
  | tool c i => rfl
  | human c => rfl
  | system c => rfl
  | ai c tcs => rfl

theorem tms_length (messages : List ChatMessage) :
    ((messages.map toOciCohereMessage).filterMap itemToolResults).length =
      (messages.filter isToolChatMessage).length := by
  rw [filterMap_itemToolResults_map]
  induction messages with
  | nil => rfl
  | cons m rest ih =>
    cases m with
    | tool c i => simpa [List.filterMap_cons, List.filter_cons, isToolChatMessage] using ih
    | human c => simpa [List.filterMap_cons, List.filter_cons, isToolChatMessage] using ih
    | system c => simpa [List.filterMap_cons, List.filter_cons, isToolChatMessage] using ih
    | ai c tcs => simpa [List.filterMap_cons, List.filter_cons, isToolChatMessage] using ih

/-- C5: in the Cohere branch of the request builder, a conversation with no
tool-result messages whose last message is user-role puts that message's text
into the standalone `message` field and excludes it from `chatHistory`, the
remaining history being the order-preserving image of the earlier messages;
and when tool-result messages are present they are all consolidated into a
single trailing TOOL wire message carrying the list of their results (one per
tool message, contents preserved in input order). -/
theorem cohere_request_assembly (messages : List ChatMessage) (t : String) :
    (messages.all (fun m => !isToolChatMessage m) = true →
      messages.getLast? = some (.human t) →
      cohereAssemble messages =
        ⟨t, (messages.dropLast.map toOciCohereMessage).filterMap itemClean, none⟩) ∧
    (messages.any isToolChatMessage = true →
      ∃ results : List CohereToolResultM,
        cohereAssemble messages =
          ⟨"", ((messages.map toOciCohereMessage).filterMap itemClean) ++
            [.toolMsg results], some results⟩ ∧
        results.map (fun r => r.outputs) = messages.filterMap toolContentOf ∧
        results.length = (messages.filter isToolChatMessage).length) := by
  constructor
  · intro hall hlast
    obtain ⟨L, rfl⟩ : ∃ L, messages = L ++ [ChatMessage.human t] :=
      ⟨messages.dropLast, eq_dropLast_concat_of_getLast? _ _ hlast⟩
    have htms := no_tool_filterMap_nil _ hall
    simp only [cohereAssemble]
    rw [htms]
    simp only [List.isEmpty_nil, if_true]
    rw [clean_concat_user, List.getLast?_concat]
    simp only [List.dropLast_concat]
  · intro hany
    have hne : (messages.map toOciCohereMessage).filterMap itemToolResults ≠ [] := by
      rw [filterMap_itemToolResults_map]
      intro hnil
      rw [List.filterMap_eq_nil_iff] at hnil
      obtain ⟨x, hx, hxt⟩ := List.any_eq_true.mp hany
      have hx2 := hnil x hx
      cases x with
      | tool c i => exact absurd hx2 (by simp)
      | human c => simp [isToolChatMessage] at hxt
      | system c => simp [isToolChatMessage] at hxt
      | ai c tcs => simp [isToolChatMessage] at hxt
    have hfalse : ((messages.map toOciCohereMessage).filterMap itemToolResults).isEmpty =
        false := by
      rw [Bool.eq_false_iff]
      intro habs
      exact hne (List.isEmpty_iff.mp habs)
    refine ⟨consolidateToolResults
        (((messages.map toOciCohereMessage).filterMap itemRawToolCalls).getLast?.getD [])
        ((messages.map toOciCohereMessage).filterMap itemToolResults), ?_, ?_, ?_⟩
    · simp only [cohereAssemble, hfalse, Bool.false_eq_true, if_false]
    · rw [consolidate_outputs, tms_outputs]
    · rw [consolidate_length, tms_length]

/-- C5 witness: a plain [system, user] conversation, and a conversation with a
tool result. -/
theorem cohere_request_assembly_witness :
    cohereAssemble [ChatMessage.system "s", ChatMessage.human "q"] =
      ⟨"q", [CohereMsg.system "s"], none⟩ ∧
    ∃ results : List CohereToolResultM,
      cohereAssemble [ChatMessage.human "q", ChatMessage.tool "out" "f"] =
        ⟨"", [CohereMsg.user "q", CohereMsg.toolMsg results], some results⟩ ∧
      results.map (fun r => r.outputs) = ["out"] ∧ results.length = 1 := by
  constructor
  · exact (cohere_request_assembly [ChatMessage.system "s", ChatMessage.human "q"] "q").1
      rfl rfl
  · obtain ⟨rs, h1, h2, h3⟩ :=
      (cohere_request_assembly [ChatMessage.human "q", ChatMessage.tool "out" "f"] "").2 rfl
    exact ⟨rs, h1, h2, h3⟩

/-! ## C8: supporting lemmas -/

theorem jsTrimList_eq_self (l : List Char) (h1 : ∀ c, l.head? = some c → jsWs c = false)
    (h2 : ∀ c, l.getLast? = some c → jsWs c = false) : jsTrimList l = l := by
  unfold jsTrimList
  have hd : l.dropWhile jsWs = l := by
    cases l with
    | nil => rfl
    | cons a t =>
      rw [List.dropWhile_cons, if_neg]
      simp [h1 a rfl]
  rw [hd]
  have hr : l.reverse.dropWhile jsWs = l.reverse := by
    cases hrev : l.reverse with
    | nil => rfl
    | cons a t =>
      rw [List.dropWhile_cons, if_neg]
      have ha : l.getLast? = some a := by
        rw [← List.head?_reverse, hrev]
        rfl
      simp [h2 a ha]
  rw [hr, List.reverse_reverse]

theorem getLast?_append_right_of (l l' : List Char) (c : Char) (h : l'.getLast? = some c) :
    (l ++ l').getLast? = some c := by
  rw [List.getLast?_append, h]
  rfl

theorem replaceBackslashN_cons_ne (c : Char) (rest : List Char)
    (h : ∀ rest', c = '\\' → rest = 'n' :: rest' → False) :
    replaceBackslashN (c :: rest) = c :: replaceBackslashN rest := by
  rw [replaceBackslashN.eq_def]
  split
  · rename_i x rest' heq
    injection heq with hc hr
    exact (h rest' hc hr).elim
  · rename_i x1 c' rest' hno heq
    injection heq with hc hr
    subst hc
    subst hr
    rfl
  · rename_i x heq
    exact absurd heq (by simp)

theorem noBackslashN_cons_ne (c : Char) (rest : List Char)
    (h : ∀ rest', c = '\\' → rest = 'n' :: rest' → False) :
    noBackslashN (c :: rest) = noBackslashN rest := by
  rw [noBackslashN.eq_def]
  split
  · rename_i x rest' heq
    injection heq with hc hr
    exact (h rest' hc hr).elim
  · rename_i x1 c' rest' hno heq
    injection heq with hc hr
    subst hr
    rfl
  · rename_i x heq
    exact absurd heq (by simp)

theorem replaceBackslashN_of_noBN : ∀ l : List Char, noBackslashN l = true →
    replaceBackslashN l = l := by
  intro l
  induction l using replaceBackslashN.induct with
  | case1 rest ih =>
    intro h
    simp [noBackslashN] at h
  | case2 c rest hne ih =>
    intro h
    rw [noBackslashN_cons_ne c rest hne] at h
    rw [replaceBackslashN_cons_ne c rest hne, ih h]
  | case3 =>
    intro h
    rfl

theorem stripWs_append (a b : List Char) :
    stripWsList (a ++ b) = stripWsList a ++ stripWsList b := List.filter_append a b

theorem stripWs_cons_nl (l : List Char) : stripWsList ('\n' :: l) = stripWsList l := by
  have h : jsWs '\n' = true := by decide
  simp [stripWsList, List.filter_cons, h]

theorem stripWs_ws_free (l : List Char) : ∀ c ∈ stripWsList l, jsWs c = false := by
  intro c hc
  have := List.of_mem_filter hc
  simpa using this

theorem stripWs_eq_self (l : List Char) (h : ∀ c ∈ l, jsWs c = false) : stripWsList l = l := by
  unfold stripWsList
  rw [List.filter_eq_self]
  intro a ha
  simp [h a ha]

theorem dropLit_append (lit r : List Char) : dropLit lit (lit ++ r) = some r := by
  unfold dropLit
  rw [if_pos (List.isPrefixOf_iff_prefix.mpr (List.prefix_append lit r)), List.drop_left]

theorem takeWhile_all_append (t : List Char) (d : Char) (r : List Char) (p : Char → Bool)
    (ht : ∀ c ∈ t, p c = true) (hd : p d = false) :
    (t ++ d :: r).takeWhile p = t ∧ (t ++ d :: r).dropWhile p = d :: r := by
  induction t with
  | nil => simp [List.takeWhile_cons, List.dropWhile_cons, hd]
  | cons a t ih =>
    have ha : p a = true := ht a (List.mem_cons_self a t)
    have ih' := ih (fun c hc => ht c (List.mem_cons_of_mem a hc))
    constructor
    · show ((a :: t) ++ d :: r).takeWhile p = a :: t
      rw [List.cons_append, List.takeWhile_cons, if_pos ha, ih'.1]
    · show ((a :: t) ++ d :: r).dropWhile p = d :: r
      rw [List.cons_append, List.dropWhile_cons, if_pos ha, ih'.2]

theorem mem_joinNewline (L : List (List Char)) (c : Char) (hc : c ∈ joinNewline L) :
    c = '\n' ∨ ∃ x ∈ L, c ∈ x := by
  induction L with
  | nil => simp [joinNewline] at hc
  | cons x xs ih =>
    cases xs with
    | nil =>
      simp only [joinNewline] at hc
      exact Or.inr ⟨x, by simp, hc⟩
    | cons y ys =>
      simp only [joinNewline] at hc
      rcases List.mem_append.mp hc with h1 | h2
      · exact Or.inr ⟨x, by simp, h1⟩
      · rcases List.mem_cons.mp h2 with rfl | h3
        · exact Or.inl rfl
        · rcases ih h3 with h | ⟨z, hz, hcz⟩
          · exact Or.inl h
          · exact Or.inr ⟨z, by simp [hz], hcz⟩

theorem stripWs_joinNewline (L : List (List Char)) (h : ∀ x ∈ L, ∀ c ∈ x, jsWs c = false) :
    stripWsList (joinNewline L) = L.flatten := by
  induction L with
  | nil => rfl
  | cons x xs ih =>
    cases xs with
    | nil =>
      simp only [joinNewline, List.flatten_cons, List.flatten_nil, List.append_nil]
      exact stripWs_eq_self x (h x (List.mem_cons_self _ _))
    | cons y ys =>
      have hx := stripWs_eq_self x (h x (List.mem_cons_self _ _))
      have ih' := ih (fun z hz c hc => h z (List.mem_cons_of_mem _ hz) c hc)
      show stripWsList (x ++ '\n' :: joinNewline (y :: ys)) = x ++ (y :: ys).flatten
      rw [stripWs_append, stripWs_cons_nl, hx, ih']

theorem splitAtFirstOccur_exact (pat : List Char) :
    ∀ u : List Char, (∀ p, p < u.length → ¬ (pat.isPrefixOf (u.drop p ++ pat) = true)) →
      splitAtFirstOccur pat (u ++ pat) = some u := by
  intro u
  induction u with
  | nil =>
    intro _
    cases pat with
    | nil => rfl
    | cons c cs =>
      show splitAtFirstOccur (c :: cs) ([] ++ c :: cs) = some []
      rw [List.nil_append]
      simp only [splitAtFirstOccur]
      rw [if_pos (List.isPrefixOf_iff_prefix.mpr List.prefix_rfl)]
  | cons c u ih =>
    intro h
    show splitAtFirstOccur pat (c :: (u ++ pat)) = some (c :: u)
    simp only [splitAtFirstOccur]
    have hc0 : ¬ (pat.isPrefixOf (c :: (u ++ pat)) = true) := by
      have h0 := h 0 (by simp)
      simpa using h0
    rw [if_neg hc0, ih (fun p hp => by
      have hstep := h (p + 1) (by simpa using Nat.succ_lt_succ hp)
      simpa using hstep)]
    rfl

theorem endTagChars_get8 (t : List Char) : (endTagChars t).get? 8 = some ' ' := by
  show ("-----END ".data ++ (t ++ "-----".data)).get? 8 = some ' '
  rw [List.get?_append (by decide)]
  decide

theorem endTagChars_length (t : List Char) : (endTagChars t).length = 14 + t.length := by
  show ("-----END ".data ++ (t ++ "-----".data)).length = _
  rw [List.length_append, List.length_append]
  have h9 : ("-----END ".data).length = 9 := by decide
  have h5 : ("-----".data).length = 5 := by decide
  omega

theorem endTagChars_early_no_space (t : List Char) : ∀ j, j < 8 →
    (endTagChars t).get? j ≠ some ' ' := by
  intro j hj
  have h9 : ("-----END ".data).length = 9 := by decide
  show ("-----END ".data ++ (t ++ "-----".data)).get? j ≠ some ' '
  rw [List.get?_append (by omega)]
  have hall : ∀ j : Nat, j < 8 → "-----END ".data.get? j ≠ some ' ' := by decide
  exact hall j hj

theorem not_prefix_early (t B : List Char) (hB : ∀ c ∈ B, c ≠ ' ') :
    ∀ p, p < ('\n' :: B ++ ['\n']).length →
      ¬ ((endTagChars t).isPrefixOf (('\n' :: B ++ ['\n']).drop p ++ endTagChars t) = true) := by
  intro p hp habs
  rw [List.isPrefixOf_iff_prefix] at habs
  obtain ⟨tail, htail⟩ := habs
  have hlen8 : 8 < (endTagChars t).length := by rw [endTagChars_length]; omega
  have hagree : ((('\n' :: B ++ ['\n']).drop p) ++ endTagChars t).get? 8 = some ' ' := by
    rw [← htail, List.get?_append hlen8]
    exact endTagChars_get8 t
  have huns : ∀ i c, ('\n' :: B ++ ['\n']).get? i = some c → c ≠ ' ' := by
    intro i c hget
    have hmem : c ∈ '\n' :: B ++ ['\n'] := List.get?_mem hget
    rcases List.mem_cons.mp hmem with rfl | hm
    · decide
    · rcases List.mem_append.mp hm with hm1 | hm2
      · exact hB c hm1
      · have hc : c = '\n' := List.mem_singleton.mp hm2
        subst hc; decide
  by_cases hcase : 8 < (('\n' :: B ++ ['\n']).drop p).length
  · rw [List.get?_append hcase, List.get?_drop] at hagree
    exact huns _ _ hagree rfl
  · push_neg at hcase
    rw [List.get?_append_right (by omega)] at hagree
    have hdl : (('\n' :: B ++ ['\n']).drop p).length = ('\n' :: B ++ ['\n']).length - p :=
      List.length_drop p _
    have hj : 8 - (('\n' :: B ++ ['\n']).drop p).length < 8 := by
      rw [hdl]
      simp only [List.length_cons, List.length_append] at hp ⊢
      omega
    exact endTagChars_early_no_space t _ hj hagree

theorem envMatchAt_formatBody (clean t : List Char) (ht : t ≠ [])
    (htype : ∀ c ∈ t, isTypeChar c = true) (hB : ∀ c ∈ renderedBody clean, c ≠ ' ') :
    envMatchAt (formatBodyList clean t) =
      some (t, '\n' :: renderedBody clean ++ ['\n']) := by
  have hemp : t.isEmpty = false := by
    cases t with
    | nil => exact absurd rfl ht
    | cons a l => rfl
  have htw := takeWhile_all_append t '-'
    ("----".data ++ ('\n' :: (renderedBody clean ++ ('\n' :: endTagChars t))))
    isTypeChar htype (by decide)
  have hshape : formatBodyList clean t =
      "-----BEGIN ".data ++
        (t ++ ("-----".data ++ ('\n' :: (renderedBody clean ++ ('\n' :: endTagChars t))))) := by
    simp [formatBodyList, endTagChars, List.append_assoc]
  rw [hshape]
  unfold envMatchAt
  rw [dropLit_append]
  simp only [Option.some_bind]
  rw [show "-----".data ++ ('\n' :: (renderedBody clean ++ ('\n' :: endTagChars t)))
      = '-' :: ("----".data ++ ('\n' :: (renderedBody clean ++ ('\n' :: endTagChars t))))
      from rfl]
  rw [htw.1, htw.2]
  rw [if_neg (by simp [hemp])]
  rw [show ('-' :: ("----".data ++ ('\n' :: (renderedBody clean ++ ('\n' :: endTagChars t)))))
      = "-----".data ++ ('\n' :: (renderedBody clean ++ ('\n' :: endTagChars t))) from rfl]
  rw [dropLit_append]
  simp only [Option.some_bind]
  rw [show ('\n' :: (renderedBody clean ++ ('\n' :: endTagChars t)))
      = ('\n' :: renderedBody clean ++ ['\n']) ++ endTagChars t from by
    simp [List.append_assoc]]
  rw [splitAtFirstOccur_exact (endTagChars t) ('\n' :: renderedBody clean ++ ['\n'])
    (not_prefix_early t (renderedBody clean) hB)]
  rfl

theorem findEnvelope_eq_of_matchAt (c : Char) (rest : List Char) (r : List Char × List Char)
    (h : envMatchAt (c :: rest) = some r) : findEnvelope (c :: rest) = some r := by
  unfold findEnvelope
  rw [h]

theorem renderedBody_no_space (clean : List Char) (h : ∀ c ∈ clean, jsWs c = false) :
    ∀ c ∈ renderedBody clean, c ≠ ' ' := by
  intro c hc heq
  subst heq
  unfold renderedBody at hc
  cases hch : chunksOfSucc 63 clean with
  | nil =>
    rw [hch] at hc
    exact absurd hc (by decide)
  | cons x xs =>
    rw [hch] at hc
    rcases mem_joinNewline (x :: xs) ' ' hc with h1 | ⟨z, hz, hcz⟩
    · exact absurd h1 (by decide)
    · have hz' : ' ' ∈ clean :=
        mem_chunksOfSucc_subset 63 clean z (by rw [hch]; exact hz) ' ' hcz
      exact absurd (h ' ' hz') (by decide)

theorem stripWs_rendered_eq (clean : List Char) (hne : clean ≠ [])
    (h : ∀ c ∈ clean, jsWs c = false) :
    stripWsList ('\n' :: renderedBody clean ++ ['\n']) = clean := by
  rw [show ('\n' :: renderedBody clean ++ ['\n'])
      = '\n' :: (renderedBody clean ++ ['\n']) from rfl]
  rw [stripWs_cons_nl, stripWs_append]
  rw [show stripWsList ['\n'] = [] from by decide, List.append_nil]
  obtain ⟨a, l, rfl⟩ : ∃ a l, clean = a :: l := by
    cases clean with
    | nil => exact absurd rfl hne
    | cons a l => exact ⟨a, l, rfl⟩
  have hch := chunksOfSucc_cons 63 a l
  unfold renderedBody
  rw [hch]
  show stripWsList (joinNewline ((a :: l.take 63) :: chunksOfSucc 63 (l.drop 63))) = a :: l
  rw [stripWs_joinNewline _ (fun x hx c hc =>
    h c (mem_chunksOfSucc_subset 63 (a :: l) x (by rw [hch]; exact hx) c hc))]
  rw [← hch]
  exact flatten_chunksOfSucc 63 (a :: l)

theorem envMatchAt_type_props (l t b : List Char) (h : envMatchAt l = some (t, b)) :
    t ≠ [] ∧ ∀ c ∈ t, isTypeChar c = true := by
  unfold envMatchAt at h
  cases hd : dropLit "-----BEGIN ".data l with
  | none => rw [hd] at h; simp at h
  | some l1 =>
    rw [hd] at h
    simp only [Option.some_bind] at h
    by_cases hemp : (l1.takeWhile isTypeChar).isEmpty
    · rw [if_pos hemp] at h; simp at h
    · rw [if_neg hemp] at h
      cases hd2 : dropLit "-----".data (l1.dropWhile isTypeChar) with
      | none => rw [hd2] at h; simp at h
      | some l2 =>
        rw [hd2] at h
        simp only [Option.some_bind] at h
        cases hs : splitAtFirstOccur (endTagChars (l1.takeWhile isTypeChar)) l2 with
        | none => rw [hs] at h; simp at h
        | some body =>
          rw [hs] at h
          simp only [Option.map_some'] at h
          obtain ⟨ht1, hb⟩ : l1.takeWhile isTypeChar = t ∧ body = b := by
            constructor
            · exact congrArg Prod.fst (Option.some.inj h)
            · exact congrArg Prod.snd (Option.some.inj h)
          subst ht1
          constructor
          · intro hnil
            rw [hnil] at hemp
            exact hemp rfl
          · intro c hc
            exact List.mem_takeWhile_imp hc

theorem findEnvelope_type_props : ∀ (l t b : List Char),
    findEnvelope l = some (t, b) → t ≠ [] ∧ ∀ c ∈ t, isTypeChar c = true := by
  intro l
  induction l with
  | nil => intro t b h; simp [findEnvelope] at h
  | cons c rest ih =>
    intro t b h
    unfold findEnvelope at h
    cases hm : envMatchAt (c :: rest) with
    | some r =>
      obtain ⟨rt, rb⟩ := r
      rw [hm] at h
      obtain ⟨rfl, rfl⟩ : rt = t ∧ rb = b := by
        constructor
        · exact congrArg Prod.fst (Option.some.inj h)
        · exact congrArg Prod.snd (Option.some.inj h)
      exact envMatchAt_type_props _ _ _ hm
    | none =>
      rw [hm] at h
      exact ih t b h

theorem formatBody_head? (clean t : List Char) : (formatBodyList clean t).head? = some '-' := by
  unfold formatBodyList
  rfl

theorem formatBody_getLast? (clean t : List Char) :
    (formatBodyList clean t).getLast? = some '-' := by
  have hF : ("-----".data : List Char).getLast? = some '-' := by decide
  unfold formatBodyList
  exact getLast?_append_right_of _ _ _ hF

theorem jsTrim_formatBody (clean t : List Char) :
    jsTrimList (formatBodyList clean t) = formatBodyList clean t := by
  apply jsTrimList_eq_self
  · intro c hc
    have h := formatBody_head? clean t
    rw [hc] at h
    have hc' : c = '-' := Option.some.inj h
    subst hc'
    decide
  · intro c hc
    have h := formatBody_getLast? clean t
    rw [hc] at h
    have hc' : c = '-' := Option.some.inj h
    subst hc'
    decide

theorem findEnvelope_of_envMatchAt (l : List Char) (r : List Char × List Char) (hl : l ≠ [])
    (h : envMatchAt l = some r) : findEnvelope l = some r := by
  cases l with
  | nil => exact absurd rfl hl
  | cons c rest => exact findEnvelope_eq_of_matchAt c rest r h

theorem privateKeyParse_fixed (clean t : List Char)
    (hclean : ∀ c ∈ clean, jsWs c = false)
    (ht : t ≠ []) (htype : ∀ c ∈ t, isTypeChar c = true)
    (hbn : noBackslashN (formatBodyList clean t) = true) :
    privateKeyParseList (formatBodyList clean t) = formatBodyList clean t := by
  have hnsp := renderedBody_no_space clean hclean
  have henv := envMatchAt_formatBody clean t ht htype hnsp
  have hne : (formatBodyList clean t).isEmpty = false := by
    unfold formatBodyList
    rfl
  have hnenil : formatBodyList clean t ≠ [] := by
    intro h0
    rw [h0] at hne
    exact absurd hne (by decide)
  have hfind := findEnvelope_of_envMatchAt _ _ hnenil henv
  unfold privateKeyParseList
  simp only [hne, Bool.false_eq_true, if_false]
  rw [jsTrim_formatBody, replaceBackslashN_of_noBN _ hbn, hfind]
  show formatBodyList (stripWsList ('\n' :: renderedBody clean ++ ['\n'])) t =
    formatBodyList clean t
  by_cases hcl : clean = []
  · subst hcl
    rw [show stripWsList ('\n' :: renderedBody [] ++ ['\n']) = "undefined".data from by decide]
    unfold formatBodyList
    rw [show renderedBody "undefined".data = renderedBody [] from by decide]
  · rw [stripWs_rendered_eq clean hcl hclean]

/-- C8 counterexample: the four-character input backslash, backslash, `n`,
`n`.  The first pass leaves a literal backslash-`n` pair in the normalized
body; the second pass un-escapes that pair into a newline, strips it, and
ends up interpolating the text `undefined` for the now-empty body, so
re-applying the normalizer changes its output: `privateKeyParse` is not
idempotent on every input. -/
theorem privateKeyParse_not_idempotent_counterexample :
    privateKeyParse (privateKeyParse "\\\\nn") ≠ privateKeyParse "\\\\nn" := by decide

/-- C8 (amended): the key normalizer maps the empty string to the empty
string, and it is idempotent on every input whose output contains no literal
backslash immediately followed by the letter `n` (the un-escaping of such a
pair by the second pass is the only source of non-idempotence, as the
counterexample shows). -/
theorem privateKeyParse_idempotent_amended :
    privateKeyParse "" = "" ∧
    ∀ s : String, noBackslashN (privateKeyParse s).data = true →
      privateKeyParse (privateKeyParse s) = privateKeyParse s := by
  refine ⟨rfl, ?_⟩
  intro s hbn
  refine congrArg String.mk ?_
  show privateKeyParseList (privateKeyParseList s.data) = privateKeyParseList s.data
  have hbn' : noBackslashN (privateKeyParseList s.data) = true := hbn
  by_cases hempty : s.data.isEmpty
  · have h0 : s.data = [] := List.isEmpty_iff.mp hempty
    rw [h0]
    rfl
  · have hfirst : ∃ clean t, privateKeyParseList s.data = formatBodyList clean t ∧
        (∀ c ∈ clean, jsWs c = false) ∧ t ≠ [] ∧ (∀ c ∈ t, isTypeChar c = true) := by
      simp only [privateKeyParseList]
      rw [if_neg hempty]
      cases hfe : findEnvelope (replaceBackslashN (jsTrimList s.data)) with
      | none =>
        refine ⟨stripWsList (replaceBackslashN (jsTrimList s.data)), "PRIVATE KEY".data,
          ?_, stripWs_ws_free _, by decide, by decide⟩
        rfl
      | some r =>
        obtain ⟨t, b⟩ := r
        have hp := findEnvelope_type_props _ t b hfe
        refine ⟨stripWsList b, t, ?_, stripWs_ws_free _, hp.1, hp.2⟩
        rfl
    obtain ⟨clean, t, heq, hclean, ht, htype⟩ := hfirst
    rw [heq]
    rw [heq] at hbn'
    exact privateKeyParse_fixed clean t hclean ht htype hbn'

/-- C8 witness: a backslash-free input, for which the amended idempotence
applies. -/
theorem privateKeyParse_idempotent_amended_witness :
    noBackslashN (privateKeyParse "abc def").data = true ∧
    privateKeyParse (privateKeyParse "abc def") = privateKeyParse "abc def" := by
  constructor
  · decide
  · exact privateKeyParse_idempotent_amended.2 "abc def" (by decide)
